import Mathlib

/-!
Verification of the forest / tree-management core (`src/tree.rs`).

The Rust code maintains an identity-indexed forest: a map from `RbxId` to
`RootedRbxInstance` plus a set of root ids.  We embed it shallowly:

* `RbxId` is `Nat` (the id generator is external and opaque; ids are only
  compared for equality).
* The payload type `RbxInstance` is an opaque type parameter `α`.
* `HashMap<RbxId, RootedRbxInstance>` is an association list
  `List (RbxId × RootedRbxInstance α)` with lookup / erase / replace
  operations (`lookupK`, `eraseK`, `insertK`); `HashSet<RbxId>` is a
  duplicate-free `List RbxId`.
* The unbounded `loop`s of `transplant` and `remove_instance` are embedded
  with an explicit fuel argument; the callers supply fuel that provably never
  runs out (each successful iteration removes one entry from a finite map),
  so the `fuel = 0` branch is unreachable at the call sites used here.
* Panics (`unwrap`, `expect`, `unimplemented!`) are embedded as `none` of an
  `Option` result.
* The fresh id produced by `RbxId::new()` inside `insert_instance` is passed
  in explicitly as the `newId` argument (the generator guarantees global
  uniqueness, which appears as a freshness hypothesis where needed).
-/

namespace RbxDom

/-- Identifiers are opaque unique keys; we embed them as naturals. -/
abbrev RbxId := Nat

/-- Mirrors `struct RootedRbxInstance`: payload, own id, ordered child ids,
optional parent id.  The Rust field `instance` is named `inst` here because
`instance` is a Lean keyword. -/
structure RootedRbxInstance (α : Type) where
  inst : α
  id : RbxId
  children : List RbxId
  parent : Option RbxId
  deriving DecidableEq

/-- Mirrors `struct RbxTree`: the instance map and the root-id set. -/
structure RbxTree (α : Type) where
  instances : List (RbxId × RootedRbxInstance α)
  root_ids : List RbxId
  deriving DecidableEq

/-- `HashMap::get`: first binding of the key, if any. -/
def lookupK {β : Type _} (k : RbxId) : List (RbxId × β) → Option β
  | [] => none
  | (k', v) :: rest => if k' = k then some v else lookupK k rest

/-- `HashMap::remove`: drop the first binding of the key. -/
def eraseK {β : Type _} (k : RbxId) : List (RbxId × β) → List (RbxId × β)
  | [] => []
  | (k', v) :: rest => if k' = k then rest else (k', v) :: eraseK k rest

/-- `HashMap::insert`: bind the key to the value, replacing any old binding. -/
def insertK {β : Type _} (k : RbxId) (v : β) (l : List (RbxId × β)) :
    List (RbxId × β) :=
  (k, v) :: eraseK k l

/-- The keys bound in an association list. -/
def keysOf {β : Type _} (l : List (RbxId × β)) : List RbxId :=
  l.map Prod.fst

/-- `HashSet::insert`. -/
def insertSet (k : RbxId) (s : List RbxId) : List RbxId :=
  if k ∈ s then s else k :: s

/-- Iterator `position`: index of the first element equal to `x`. -/
def position (x : RbxId) : List RbxId → Option Nat
  | [] => none
  | y :: rest => if y = x then some 0 else (position x rest).map (· + 1)

/-- `RbxTree::new`. -/
def RbxTree.new {α : Type} : RbxTree α := ⟨[], []⟩

/-- `RbxTree::get_root_ids`. -/
def RbxTree.get_root_ids {α : Type} (t : RbxTree α) : List RbxId :=
  t.root_ids

/-- `RbxTree::get_instance`. -/
def RbxTree.get_instance {α : Type} (t : RbxTree α) (id : RbxId) :
    Option (RootedRbxInstance α) :=
  lookupK id t.instances

/-- `RbxTree::insert_instance_internal`.  The `expect` on a missing parent is
a panic, embedded as `none`; the panic happens before any mutation, so `none`
carries no partially updated tree, matching the unwind semantics. -/
def insert_instance_internal {α : Type} (t : RbxTree α)
    (inst0 : RootedRbxInstance α) : Option (RbxTree α) :=
  match inst0.parent with
  | some parent_id =>
    match lookupK parent_id t.instances with
    | none => none
    | some parent =>
      let parent' : RootedRbxInstance α :=
        { parent with children := parent.children ++ [inst0.id] }
      some { t with
             instances := insertK inst0.id inst0
               (insertK parent_id parent' t.instances) }
  | none =>
    some { t with
      root_ids := insertSet inst0.id t.root_ids,
      instances := insertK inst0.id inst0 t.instances }

/-- `RbxTree::insert_instance`; `newId` stands for the fresh `RbxId::new()`. -/
def insert_instance {α : Type} (t : RbxTree α) (inst0 : α) (newId : RbxId)
    (parent_id : Option RbxId) : Option (RbxId × RbxTree α) :=
  match insert_instance_internal t ⟨inst0, newId, [], parent_id⟩ with
  | none => none
  | some t' => some (newId, t')

/-- The `loop` body of `RbxTree::transplant`, faithful to the source order:
remove the visited node from the source map (`unwrap` panic as `none`), set
its parent, clear its child list, then iterate the (already cleared) child
list pushing work items, then insert into `self`.  Children pushed in list
order and popped last-in-first-out appear reversed at the head of the work
list. -/
def transplantLoop {α : Type} :
    Nat → RbxTree α → RbxTree α → List (RbxId × Option RbxId) →
    Option (RbxTree α × RbxTree α)
  | _, self, source, [] => some (self, source)
  | 0, _, _, _ :: _ => none
  | fuel + 1, self, source, (id, parent_id) :: rest =>
    match lookupK id source.instances with
    | none => none
    | some inst0 =>
      let source' : RbxTree α := { source with instances := eraseK id source.instances }
      let inst1 : RootedRbxInstance α := { inst0 with parent := parent_id, children := [] }
      let pushes : List (RbxId × Option RbxId) :=
        inst1.children.reverse.map (fun c => (c, some id))
      match insert_instance_internal self inst1 with
      | none => none
      | some self' => transplantLoop fuel self' source' (pushes ++ rest)

/-- `RbxTree::transplant`.  Each successful loop iteration removes one entry
from the source map, so `source.instances.length + 1` units of fuel can never
be exhausted. -/
def transplant {α : Type} (self source : RbxTree α) (source_id : RbxId)
    (new_parent_id : Option RbxId) : Option (RbxTree α × RbxTree α) :=
  transplantLoop (source.instances.length + 1) self source
    [(source_id, new_parent_id)]

/-- Weight of an instance map: one per node plus the length of its child
list.  This bounds the number of loop iterations of `remove_instance`. -/
def sizeK {α : Type} (l : List (RbxId × RootedRbxInstance α)) : Nat :=
  (l.map (fun kn => 1 + kn.2.children.length)).sum

/-- The collection `loop` of `RbxTree::remove_instance`: pop an id; if it is
still in the map, push its children (popped last-in-first-out, hence reversed
at the head), move the node from the map into the accumulator; absent ids are
skipped.  Fuel as in `transplantLoop`. -/
def removeLoop {α : Type} :
    Nat → List (RbxId × RootedRbxInstance α) → List RbxId →
    List (RbxId × RootedRbxInstance α) →
    List (RbxId × RootedRbxInstance α) × List (RbxId × RootedRbxInstance α)
  | _, instances0, [], acc => (instances0, acc)
  | 0, instances0, _ :: _, acc => (instances0, acc)
  | fuel + 1, instances0, id :: rest, acc =>
    match lookupK id instances0 with
    | none => removeLoop fuel instances0 rest acc
    | some inst0 =>
      removeLoop fuel (eraseK id instances0) (inst0.children.reverse ++ rest)
        (insertK id inst0 acc)

/-- The unlink step of `RbxTree::remove_instance`: detach `root_id` from its
former parent's child list (via `position`, then `Vec::remove` at that index)
or from `root_ids` if it was a root.  The two `unwrap`s are panics, embedded
as `none`. -/
def unlinkStep {α : Type} (t : RbxTree α) (root_id : RbxId)
    (inst0 : RootedRbxInstance α) : Option (RbxTree α) :=
  match inst0.parent with
  | some parent_id =>
    match lookupK parent_id t.instances with
    | none => none
    | some parent =>
      match position root_id parent.children with
      | none => none
      | some index =>
        let parent' : RootedRbxInstance α :=
          { parent with children := parent.children.eraseIdx index }
        some { t with
               instances := insertK parent_id parent' t.instances }
  | none => some { t with root_ids := t.root_ids.erase root_id }

/-- `RbxTree::remove_instance`.  Result `none` is a panic (an `unwrap` on the
parent lookup or on `position`); `some (t', none)` is Rust's `None` return
(id absent, no mutation); `some (t', some ret)` is a successful removal. -/
def remove_instance {α : Type} (t : RbxTree α) (root_id : RbxId) :
    Option (RbxTree α × Option (RbxTree α)) :=
  match lookupK root_id t.instances with
  | none => some (t, none)
  | some inst0 =>
    match unlinkStep t root_id inst0 with
    | none => none
    | some t1 =>
      let res := removeLoop (sizeK t1.instances + 1) t1.instances [root_id] []
      some ({ t1 with instances := res.1 }, some ⟨res.2, [root_id]⟩)

/-- One call of `Descendants::next`: pop ids until one resolves to a live
node; push its children (reversed at the head, matching last-in-first-out)
and yield it. -/
def descNext {α : Type} (t : RbxTree α) :
    List RbxId → Option (RootedRbxInstance α × List RbxId)
  | [] => none
  | id :: rest =>
    match lookupK id t.instances with
    | some inst0 => some (inst0, inst0.children.reverse ++ rest)
    | none => descNext t rest

/-- Repeated calls of `Descendants::next`; `fuel` is the number of calls the
consumer makes, so the full yielded sequence is obtained for any large enough
fuel. -/
def descendantsAux {α : Type} (t : RbxTree α) :
    Nat → List RbxId → List (RootedRbxInstance α)
  | 0, _ => []
  | fuel + 1, stack =>
    match descNext t stack with
    | none => []
    | some (inst0, stack') => inst0 :: descendantsAux t fuel stack'

/-- `RbxTree::descendants`, iterated `fuel` times from the stack `[id]`. -/
def descendants {α : Type} (t : RbxTree α) (id : RbxId) (fuel : Nat) :
    List (RootedRbxInstance α) :=
  descendantsAux t fuel [id]

/-- `impl Clone for RbxTree`: the body is `unimplemented!()`, an
unconditional panic, embedded as `none`. -/
def RbxTree.clone {α : Type} (_t : RbxTree α) : Option (RbxTree α) :=
  none

/-- Static reachability through child lists: `Reaches t a x` holds when `x`
is `a` itself or a transitive child of `a` in the forest `t`.  This is the
specification-level notion of "descendant". -/
inductive Reaches {α : Type} (t : RbxTree α) : RbxId → RbxId → Prop
  | refl (a : RbxId) : Reaches t a a
  | tail {a b c : RbxId} {n : RootedRbxInstance α} :
      Reaches t a b → lookupK b t.instances = some n → c ∈ n.children →
      Reaches t a c

/-- The spec's data-model invariants 1-5 (section 3) for a forest, together
with representation facts the Rust types guarantee (`HashMap` keys are
unique, a stored node's `id` field equals its key, `HashSet` has no
duplicates).  Invariant 5 (acyclicity) is phrased as the existence of a rank
function that strictly increases from a node to each of its children. -/
structure WF {α : Type} (t : RbxTree α) : Prop where
  nodup_keys : (keysOf t.instances).Nodup
  id_eq : ∀ kn ∈ t.instances, (kn.2).id = kn.1
  parent_mem : ∀ kn ∈ t.instances, ∀ q, (kn.2).parent = some q →
    ∃ n, lookupK q t.instances = some n ∧ kn.1 ∈ n.children
  child_parent : ∀ kn ∈ t.instances, ∀ c ∈ (kn.2).children,
    ∃ n, lookupK c t.instances = some n ∧ n.parent = some kn.1
  roots_sub : ∀ r ∈ t.root_ids,
    ∃ n, lookupK r t.instances = some n ∧ n.parent = none
  sub_roots : ∀ kn ∈ t.instances, (kn.2).parent = none → kn.1 ∈ t.root_ids
  nodup_roots : t.root_ids.Nodup
  nodup_children : ∀ kn ∈ t.instances, (kn.2).children.Nodup
  acyc : ∃ rank : RbxId → Nat,
    ∀ kn ∈ t.instances, ∀ c ∈ (kn.2).children, rank kn.1 < rank c

/-- Specification-side description of the traversal order of `descendants`
(spec section 4.5): pre-order depth-first, visiting each node's children in
reverse child-list order.  The fuel bounds the recursion depth; every fuel at
least `t.instances.length` gives the same list on a well-formed forest (see
`dfsSpec_stable`), so `dfsSpec t t.instances.length id` is the canonical
expected visit order used to state C6. -/
def dfsSpec {α : Type} (t : RbxTree α) : Nat → RbxId → List RbxId
  | 0, id => [id]
  | fuel + 1, id =>
    match lookupK id t.instances with
    | none => [id]
    | some n => id :: (n.children.reverse.map (fun c => dfsSpec t fuel c)).flatten

/-! ### Concrete forests used by the theorems below

`exTreeA` is the forest produced by inserting payload `100` as a root (fresh
id `1`) into an empty forest; `exTreeAB` additionally inserts payload `200`
under it (fresh id `2`); both facts are proved in `exTree_built`, so these
forests are reachable through the public API.  `w7tree` is a one-node forest
and `wfTree` a four-node forest used as witness inputs. -/

def exTreeA : RbxTree Nat := ⟨[(1, ⟨100, 1, [], none⟩)], [1]⟩

def exTreeAB : RbxTree Nat :=
  ⟨[(2, ⟨200, 2, [], some 1⟩), (1, ⟨100, 1, [2], none⟩)], [1]⟩

def w7tree : RbxTree Nat := ⟨[(5, ⟨7, 5, [], none⟩)], [5]⟩

def wfTree : RbxTree Nat :=
  ⟨[(1, ⟨10, 1, [2, 3], none⟩), (2, ⟨20, 2, [4], some 1⟩),
    (3, ⟨30, 3, [], some 1⟩), (4, ⟨40, 4, [], some 2⟩)], [1]⟩

/-! ### Basic lemmas about the association-list map operations -/

theorem lookupK_eq_none_iff {β : Type _} {k : RbxId} {l : List (RbxId × β)} :
    lookupK k l = none ↔ k ∉ keysOf l := by
  induction l with
  | nil => simp [lookupK, keysOf]
  | cons kn rest ih =>
    obtain ⟨k', v⟩ := kn
    by_cases h : k' = k
    · subst h
      simp [lookupK, keysOf]
    · simp only [lookupK, if_neg h, keysOf, List.map_cons, List.mem_cons,
        not_or]
      rw [ih]
      constructor
      · intro h1
        exact ⟨fun hh => h hh.symm, h1⟩
      · intro h1
        exact h1.2

theorem mem_keysOf_iff_lookupK {β : Type _} {k : RbxId} {l : List (RbxId × β)} :
    k ∈ keysOf l ↔ ∃ v, lookupK k l = some v := by
  constructor
  · intro hk
    rcases h : lookupK k l with _ | v
    · exact absurd hk (lookupK_eq_none_iff.mp h)
    · exact ⟨v, rfl⟩
  · rintro ⟨v, hv⟩
    by_contra hk
    rw [lookupK_eq_none_iff.mpr hk] at hv
    cases hv

theorem lookupK_mem {β : Type _} {k : RbxId} {v : β} {l : List (RbxId × β)}
    (h : lookupK k l = some v) : (k, v) ∈ l := by
  induction l with
  | nil => cases h
  | cons kn rest ih =>
    obtain ⟨k', v'⟩ := kn
    by_cases hk : k' = k
    · subst hk
      simp [lookupK] at h
      subst h
      exact List.mem_cons_self _ _
    · simp [lookupK, hk] at h
      exact List.mem_cons_of_mem _ (ih h)

theorem mem_keysOf_of_lookupK {β : Type _} {k : RbxId} {v : β}
    {l : List (RbxId × β)} (h : lookupK k l = some v) : k ∈ keysOf l := by
  exact List.mem_map.mpr ⟨(k, v), lookupK_mem h, rfl⟩

theorem lookupK_eraseK_ne {β : Type _} {k k' : RbxId} (h : k' ≠ k)
    (l : List (RbxId × β)) : lookupK k' (eraseK k l) = lookupK k' l := by
  induction l with
  | nil => rfl
  | cons kn rest ih =>
    obtain ⟨k'', v⟩ := kn
    by_cases hk : k'' = k
    · subst hk
      have hne : ¬(k'' = k') := fun hh => h hh.symm
      simp [eraseK, lookupK, hne]
    · simp only [eraseK, if_neg hk, lookupK]
      rw [ih]

theorem eraseK_of_not_mem {β : Type _} {k : RbxId} {l : List (RbxId × β)}
    (h : k ∉ keysOf l) : eraseK k l = l := by
  induction l with
  | nil => rfl
  | cons kn rest ih =>
    obtain ⟨k', v⟩ := kn
    simp only [keysOf, List.map_cons, List.mem_cons, not_or] at h
    have h1 : ¬(k' = k) := fun hh => h.1 hh.symm
    simp only [eraseK, if_neg h1]
    rw [ih h.2]

theorem keysOf_eraseK_sublist {β : Type _} (k : RbxId) (l : List (RbxId × β)) :
    (keysOf (eraseK k l)).Sublist (keysOf l) := by
  induction l with
  | nil => exact List.Sublist.refl _
  | cons kn rest ih =>
    obtain ⟨k', v⟩ := kn
    by_cases hk : k' = k
    · simp only [eraseK, if_pos hk, keysOf, List.map_cons]
      exact (List.Sublist.refl _).cons _
    · simp only [eraseK, if_neg hk, keysOf, List.map_cons]
      exact ih.cons₂ _

theorem nodup_keysOf_eraseK {β : Type _} {k : RbxId} {l : List (RbxId × β)}
    (h : (keysOf l).Nodup) : (keysOf (eraseK k l)).Nodup :=
  (keysOf_eraseK_sublist k l).nodup h

theorem lookupK_eraseK_self {β : Type _} {k : RbxId} {l : List (RbxId × β)}
    (h : (keysOf l).Nodup) : lookupK k (eraseK k l) = none := by
  induction l with
  | nil => rfl
  | cons kn rest ih =>
    obtain ⟨k', v⟩ := kn
    simp only [keysOf, List.map_cons, List.nodup_cons] at h
    by_cases hk : k' = k
    · subst hk
      simp only [eraseK, if_pos rfl]
      exact lookupK_eq_none_iff.mpr h.1
    · simp only [eraseK, if_neg hk, lookupK, if_neg hk]
      exact ih h.2

theorem lookupK_insertK_self {β : Type _} (k : RbxId) (v : β)
    (l : List (RbxId × β)) : lookupK k (insertK k v l) = some v := by
  simp [insertK, lookupK]

theorem lookupK_insertK_ne {β : Type _} {k k' : RbxId} (h : k' ≠ k) (v : β)
    (l : List (RbxId × β)) : lookupK k' (insertK k v l) = lookupK k' l := by
  have hne : ¬(k = k') := fun hh => h hh.symm
  simp only [insertK, lookupK, if_neg hne]
  exact lookupK_eraseK_ne h l

theorem nodup_keysOf_insertK {β : Type _} {k : RbxId} {v : β}
    {l : List (RbxId × β)} (h : (keysOf l).Nodup) :
    (keysOf (insertK k v l)).Nodup := by
  simp only [insertK, keysOf, List.map_cons, List.nodup_cons]
  refine ⟨?_, nodup_keysOf_eraseK h⟩
  intro hk
  obtain ⟨w, hw⟩ := mem_keysOf_iff_lookupK.mp hk
  rw [lookupK_eraseK_self h] at hw
  cases hw

theorem sizeK_eraseK {α : Type} {k : RbxId} {n : RootedRbxInstance α}
    {l : List (RbxId × RootedRbxInstance α)} (h : lookupK k l = some n) :
    sizeK (eraseK k l) + 1 + n.children.length = sizeK l := by
  induction l with
  | nil => cases h
  | cons kn rest ih =>
    obtain ⟨k', v⟩ := kn
    by_cases hk : k' = k
    · subst hk
      simp [lookupK] at h
      subst h
      simp [eraseK, sizeK]
      omega
    · simp [lookupK, hk] at h
      simp [eraseK, hk, sizeK] at ih ⊢
      have := ih h
      omega

/-! ### Reachability lemmas under well-formedness -/

theorem Reaches.trans {α : Type} {t : RbxTree α} {a b c : RbxId}
    (h1 : Reaches t a b) (h2 : Reaches t b c) : Reaches t a c := by
  induction h2 with
  | refl => exact h1
  | tail _ hl hc ih => exact Reaches.tail ih hl hc

theorem reaches_child {α : Type} {t : RbxTree α} {a c : RbxId}
    {n : RootedRbxInstance α} (hl : lookupK a t.instances = some n)
    (hc : c ∈ n.children) : Reaches t a c :=
  Reaches.tail (Reaches.refl a) hl hc

/-- Head decomposition: a nontrivial reachability path starts with a child
step. -/
theorem reaches_head_cases {α : Type} {t : RbxTree α} {a x : RbxId}
    (h : Reaches t a x) :
    a = x ∨ ∃ n c, lookupK a t.instances = some n ∧ c ∈ n.children ∧
      Reaches t c x := by
  induction h with
  | refl => exact Or.inl rfl
  | tail hab hl hc ih =>
    rcases ih with rfl | ⟨m, d, hm, hd, hdb⟩
    · exact Or.inr ⟨_, _, hl, hc, Reaches.refl _⟩
    · exact Or.inr ⟨m, d, hm, hd, Reaches.tail hdb hl hc⟩

/-- Along a reachability path any rank certifying acyclicity strictly
increases (unless the path is trivial). -/
theorem rank_mono {α : Type} {t : RbxTree α} {rank : RbxId → Nat}
    (hrank : ∀ kn ∈ t.instances, ∀ c ∈ (kn.2).children, rank kn.1 < rank c)
    {a b : RbxId} (h : Reaches t a b) : a = b ∨ rank a < rank b := by
  induction h with
  | refl => exact Or.inl rfl
  | tail hab hl hc ih =>
    have hlt := hrank _ (lookupK_mem hl) _ hc
    rcases ih with rfl | hlt2
    · exact Or.inr hlt
    · exact Or.inr (hlt2.trans hlt)

/-- Invariant 2 makes the parent of a child unique: a node appearing in two
child lists forces the two owners to coincide. -/
theorem parent_unique {α : Type} {t : RbxTree α} (hwf : WF t)
    {y z x : RbxId} {n m : RootedRbxInstance α}
    (hy : lookupK y t.instances = some n) (hx : x ∈ n.children)
    (hz : lookupK z t.instances = some m) (hx' : x ∈ m.children) : y = z := by
  obtain ⟨nx, hnx, hpx⟩ := hwf.child_parent _ (lookupK_mem hy) _ hx
  obtain ⟨nx', hnx', hpx'⟩ := hwf.child_parent _ (lookupK_mem hz) _ hx'
  rw [hnx] at hnx'
  injection hnx' with hee
  subst hee
  rw [hpx] at hpx'
  injection hpx' with h2

/-- Two nodes sharing a descendant are comparable in the ancestor order. -/
theorem reaches_comparable {α : Type} {t : RbxTree α} (hwf : WF t)
    {a b x : RbxId} (ha : Reaches t a x) (hb : Reaches t b x) :
    Reaches t a b ∨ Reaches t b a := by
  induction ha with
  | refl => exact Or.inr hb
  | tail hay hl hc ih =>
    cases hb with
    | refl => exact Or.inl (Reaches.tail hay hl hc)
    | tail hbz hl' hc' =>
      have hyz := parent_unique hwf hl hc hl' hc'
      subst hyz
      exact ih hbz

/-- A node cannot reach a sibling distinct from itself. -/
theorem reaches_sibling_absurd {α : Type} {t : RbxTree α} (hwf : WF t)
    {rank : RbxId → Nat}
    (hrank : ∀ kn ∈ t.instances, ∀ c ∈ (kn.2).children, rank kn.1 < rank c)
    {v c c' : RbxId} {n : RootedRbxInstance α}
    (hv : lookupK v t.instances = some n)
    (hc : c ∈ n.children) (hc' : c' ∈ n.children) (hne : c ≠ c')
    (hreach : Reaches t c c') : False := by
  cases hreach with
  | refl => exact hne rfl
  | tail hcz hl' hcm =>
    have hzv := parent_unique hwf hl' hcm hv hc'
    rw [hzv] at hcz
    have h1 : rank v < rank c := hrank _ (lookupK_mem hv) _ hc
    rcases rank_mono hrank hcz with rfl | h2
    · omega
    · omega

/-- Subtrees of two distinct children of the same node are disjoint. -/
theorem sibling_disjoint {α : Type} {t : RbxTree α} (hwf : WF t)
    {rank : RbxId → Nat}
    (hrank : ∀ kn ∈ t.instances, ∀ c ∈ (kn.2).children, rank kn.1 < rank c)
    {v c c' x : RbxId} {n : RootedRbxInstance α}
    (hv : lookupK v t.instances = some n)
    (hc : c ∈ n.children) (hc' : c' ∈ n.children) (hne : c ≠ c')
    (h1 : Reaches t c x) (h2 : Reaches t c' x) : False := by
  rcases reaches_comparable hwf h1 h2 with h | h
  · exact reaches_sibling_absurd hwf hrank hv hc hc' hne h
  · exact reaches_sibling_absurd hwf hrank hv hc' hc (Ne.symm hne) h

/-- Every descendant of a present node is present. -/
theorem reaches_mem_keys {α : Type} {t : RbxTree α} (hwf : WF t) {a x : RbxId}
    (ha : a ∈ keysOf t.instances) (h : Reaches t a x) :
    x ∈ keysOf t.instances := by
  induction h with
  | refl => exact ha
  | tail hab hl hc ih =>
    obtain ⟨nx, hnx, _⟩ := hwf.child_parent _ (lookupK_mem hl) _ hc
    exact mem_keysOf_of_lookupK hnx

/-- Any acyclicity rank can be normalised to take values below the number of
nodes, by replacing each rank with the number of present keys of smaller
rank. -/
theorem exists_bounded_rank {α : Type} {t : RbxTree α} (hwf : WF t) :
    ∃ rank : RbxId → Nat,
      (∀ kn ∈ t.instances, ∀ c ∈ (kn.2).children, rank kn.1 < rank c) ∧
      (∀ k ∈ keysOf t.instances, rank k < t.instances.length) := by
  obtain ⟨rank, hrank⟩ := hwf.acyc
  classical
  refine ⟨fun x =>
    ((keysOf t.instances).toFinset.filter (fun y => rank y < rank x)).card,
    ?_, ?_⟩
  · intro kn hkn c hc
    have h1 : kn.1 ∈ keysOf t.instances := List.mem_map.mpr ⟨kn, hkn, rfl⟩
    have hlt : rank kn.1 < rank c := hrank _ hkn _ hc
    have hsub : (keysOf t.instances).toFinset.filter
          (fun y => rank y < rank kn.1) ⊆
        (keysOf t.instances).toFinset.filter (fun y => rank y < rank c) := by
      intro y hy
      simp only [Finset.mem_filter] at hy ⊢
      exact ⟨hy.1, hy.2.trans hlt⟩
    have hx : kn.1 ∈
        (keysOf t.instances).toFinset.filter (fun y => rank y < rank c) := by
      simp only [Finset.mem_filter, List.mem_toFinset]
      exact ⟨h1, hlt⟩
    have hnx : kn.1 ∉
        (keysOf t.instances).toFinset.filter (fun y => rank y < rank kn.1) := by
      simp only [Finset.mem_filter, List.mem_toFinset]
      omega
    exact Finset.card_lt_card
      ((Finset.ssubset_iff_of_subset hsub).mpr ⟨kn.1, hx, hnx⟩)
  · intro k hk
    have hsub : (keysOf t.instances).toFinset.filter
          (fun y => rank y < rank k) ⊆ (keysOf t.instances).toFinset :=
      Finset.filter_subset _ _
    have hnx : k ∉
        (keysOf t.instances).toFinset.filter (fun y => rank y < rank k) := by
      simp only [Finset.mem_filter, List.mem_toFinset]
      omega
    calc ((keysOf t.instances).toFinset.filter (fun y => rank y < rank k)).card
        < (keysOf t.instances).toFinset.card :=
          Finset.card_lt_card ((Finset.ssubset_iff_of_subset hsub).mpr
            ⟨k, List.mem_toFinset.mpr hk, hnx⟩)
      _ ≤ (keysOf t.instances).length := List.toFinset_card_le _
      _ = t.instances.length := by simp [keysOf]

/-! ### Properties of the specification traversal order `dfsSpec` -/

/-- The specification traversal always starts with the requested id. -/
theorem dfsSpec_cons {α : Type} (t : RbxTree α) (f : Nat) (id : RbxId) :
    ∃ l, dfsSpec t f id = id :: l := by
  cases f with
  | zero => exact ⟨[], rfl⟩
  | succ f =>
    cases h : lookupK id t.instances with
    | none => exact ⟨[], by simp [dfsSpec, h]⟩
    | some n =>
      exact ⟨(n.children.reverse.map (fun c => dfsSpec t f c)).flatten,
        by simp [dfsSpec, h]⟩

/-- On a well-formed forest, any fuel of at least
`t.instances.length - rank id` produces the same specification traversal. -/
theorem dfsSpec_stable {α : Type} {t : RbxTree α} (hwf : WF t)
    {rank : RbxId → Nat}
    (hrank : ∀ kn ∈ t.instances, ∀ c ∈ (kn.2).children, rank kn.1 < rank c)
    (hbound : ∀ k ∈ keysOf t.instances, rank k < t.instances.length) :
    ∀ f g id, id ∈ keysOf t.instances →
      t.instances.length - rank id ≤ f → t.instances.length - rank id ≤ g →
      dfsSpec t f id = dfsSpec t g id := by
  intro f
  induction f with
  | zero =>
    intro g id hid hf _
    have hb := hbound id hid
    exact absurd hf (by omega)
  | succ f ih =>
    intro g id hid hf hg
    obtain ⟨n, hn⟩ := mem_keysOf_iff_lookupK.mp hid
    have hb := hbound id hid
    cases g with
    | zero => exact absurd hg (by omega)
    | succ g =>
      simp only [dfsSpec, hn]
      refine congrArg (List.cons id) (congrArg List.flatten
        (List.map_congr_left ?_))
      intro c hcrev
      have hc := List.mem_reverse.mp hcrev
      obtain ⟨nc, hnc, _⟩ := hwf.child_parent _ (lookupK_mem hn) _ hc
      have hcm := mem_keysOf_of_lookupK hnc
      have hlt : rank id < rank c := hrank _ (lookupK_mem hn) _ hc
      exact ih g c hcm (by omega) (by omega)

/-- Everything in the specification traversal of `id` is reachable from
`id`. -/
theorem dfsSpec_mem_reaches {α : Type} {t : RbxTree α} (hwf : WF t)
    {rank : RbxId → Nat}
    (hrank : ∀ kn ∈ t.instances, ∀ c ∈ (kn.2).children, rank kn.1 < rank c)
    (hbound : ∀ k ∈ keysOf t.instances, rank k < t.instances.length) :
    ∀ f id x, id ∈ keysOf t.instances →
      t.instances.length - rank id ≤ f →
      x ∈ dfsSpec t f id → Reaches t id x := by
  intro f
  induction f with
  | zero =>
    intro id x hid hf _
    have hb := hbound id hid
    exact absurd hf (by omega)
  | succ f ih =>
    intro id x hid hf hx
    obtain ⟨n, hn⟩ := mem_keysOf_iff_lookupK.mp hid
    have hb := hbound id hid
    simp only [dfsSpec, hn] at hx
    rcases List.mem_cons.mp hx with rfl | hx2
    · exact Reaches.refl _
    · obtain ⟨l, hl, hxl⟩ := List.mem_flatten.mp hx2
      obtain ⟨c, hcrev, rfl⟩ := List.mem_map.mp hl
      have hc := List.mem_reverse.mp hcrev
      obtain ⟨nc, hnc, _⟩ := hwf.child_parent _ (lookupK_mem hn) _ hc
      have hcm := mem_keysOf_of_lookupK hnc
      have hlt : rank id < rank c := hrank _ (lookupK_mem hn) _ hc
      have hreach : Reaches t c x := ih c x hcm (by omega) hxl
      exact (reaches_child hn hc).trans hreach

/-- Everything reachable from `id` occurs in its specification traversal. -/
theorem reaches_mem_dfsSpec {α : Type} {t : RbxTree α} (hwf : WF t)
    {rank : RbxId → Nat}
    (hrank : ∀ kn ∈ t.instances, ∀ c ∈ (kn.2).children, rank kn.1 < rank c)
    (hbound : ∀ k ∈ keysOf t.instances, rank k < t.instances.length) :
    ∀ f id x, id ∈ keysOf t.instances →
      t.instances.length - rank id ≤ f →
      Reaches t id x → x ∈ dfsSpec t f id := by
  intro f
  induction f with
  | zero =>
    intro id x hid hf _
    have hb := hbound id hid
    exact absurd hf (by omega)
  | succ f ih =>
    intro id x hid hf hr
    obtain ⟨n, hn⟩ := mem_keysOf_iff_lookupK.mp hid
    have hb := hbound id hid
    simp only [dfsSpec, hn]
    rcases reaches_head_cases hr with rfl | ⟨m, c, hm, hc, hcx⟩
    · exact List.mem_cons_self _ _
    · rw [hn] at hm
      injection hm with hm1
      subst hm1
      have hcrev : c ∈ n.children.reverse := List.mem_reverse.mpr hc
      obtain ⟨nc, hnc, _⟩ := hwf.child_parent _ (lookupK_mem hn) _ hc
      have hcm := mem_keysOf_of_lookupK hnc
      have hlt : rank id < rank c := hrank _ (lookupK_mem hn) _ hc
      have hx : x ∈ dfsSpec t f c := ih c x hcm (by omega) hcx
      exact List.mem_cons_of_mem _ (List.mem_flatten.mpr
        ⟨dfsSpec t f c, List.mem_map.mpr ⟨c, hcrev, rfl⟩, hx⟩)

/-- The specification traversal visits each node at most once. -/
theorem dfsSpec_nodup {α : Type} {t : RbxTree α} (hwf : WF t)
    {rank : RbxId → Nat}
    (hrank : ∀ kn ∈ t.instances, ∀ c ∈ (kn.2).children, rank kn.1 < rank c)
    (hbound : ∀ k ∈ keysOf t.instances, rank k < t.instances.length) :
    ∀ f id, id ∈ keysOf t.instances →
      t.instances.length - rank id ≤ f → (dfsSpec t f id).Nodup := by
  intro f
  induction f with
  | zero =>
    intro id hid hf
    have hb := hbound id hid
    exact absurd hf (by omega)
  | succ f ih =>
    intro id hid hf
    obtain ⟨n, hn⟩ := mem_keysOf_iff_lookupK.mp hid
    have hb := hbound id hid
    have hmemn := lookupK_mem hn
    have hkey : ∀ c ∈ n.children,
        c ∈ keysOf t.instances ∧ rank id < rank c := by
      intro c hc
      obtain ⟨nc, hnc, _⟩ := hwf.child_parent _ hmemn _ hc
      exact ⟨mem_keysOf_of_lookupK hnc, hrank _ hmemn _ hc⟩
    simp only [dfsSpec, hn]
    rw [List.nodup_cons]
    constructor
    · intro hid2
      obtain ⟨l, hl, hxl⟩ := List.mem_flatten.mp hid2
      obtain ⟨c, hcrev, rfl⟩ := List.mem_map.mp hl
      have hc := List.mem_reverse.mp hcrev
      obtain ⟨hcm, hlt⟩ := hkey c hc
      have hreach : Reaches t c id :=
        dfsSpec_mem_reaches hwf hrank hbound f c id hcm (by omega) hxl
      rcases rank_mono hrank hreach with rfl | h2
      · omega
      · omega
    · rw [List.nodup_flatten]
      constructor
      · intro l hl
        obtain ⟨c, hcrev, rfl⟩ := List.mem_map.mp hl
        obtain ⟨hcm, hlt⟩ := hkey c (List.mem_reverse.mp hcrev)
        exact ih c hcm (by omega)
      · rw [List.pairwise_map]
        have hnd : n.children.reverse.Nodup :=
          List.nodup_reverse.mpr (hwf.nodup_children _ hmemn)
        refine List.Pairwise.imp_of_mem ?_ hnd
        intro a b ha hb hab x hax hbx
        have ham := (hkey a (List.mem_reverse.mp ha)).1
        have hbm := (hkey b (List.mem_reverse.mp hb)).1
        exact sibling_disjoint hwf hrank hn (List.mem_reverse.mp ha)
          (List.mem_reverse.mp hb) hab
          (dfsSpec_mem_reaches hwf hrank hbound f a x ham
            (by have := (hkey a (List.mem_reverse.mp ha)).2; omega) hax)
          (dfsSpec_mem_reaches hwf hrank hbound f b x hbm
            (by have := (hkey b (List.mem_reverse.mp hb)).2; omega) hbx)

/-- Master lemma for the descendants iterator: starting from any stack of
present ids with pairwise disjoint subtrees, iterating `Descendants::next`
yields, in order, exactly the concatenation of the specification traversals
of the stacked ids, and every yielded node is bound in the forest under its
own id. -/
theorem descendantsAux_spec {α : Type} {t : RbxTree α} (hwf : WF t)
    {rank : RbxId → Nat}
    (hrank : ∀ kn ∈ t.instances, ∀ c ∈ (kn.2).children, rank kn.1 < rank c)
    (hbound : ∀ k ∈ keysOf t.instances, rank k < t.instances.length) :
    ∀ fuel stack,
      (∀ s ∈ stack, s ∈ keysOf t.instances) →
      stack.Pairwise (fun a b => ∀ x, Reaches t a x → Reaches t b x → False) →
      ((stack.map (fun u => dfsSpec t t.instances.length u)).flatten).length ≤
        fuel →
      (descendantsAux t fuel stack).map (fun i => i.id) =
        (stack.map (fun u => dfsSpec t t.instances.length u)).flatten
      ∧ ∀ i ∈ descendantsAux t fuel stack,
          lookupK i.id t.instances = some i := by
  intro fuel
  induction fuel with
  | zero =>
    intro stack hmem hpw hlen
    cases stack with
    | nil =>
      refine ⟨rfl, ?_⟩
      intro i hi
      cases hi
    | cons s rest =>
      exfalso
      obtain ⟨l, hl⟩ := dfsSpec_cons t t.instances.length s
      simp only [List.map_cons, List.flatten_cons, hl, List.length_append,
        List.length_cons] at hlen
      omega
  | succ fuel ih =>
    intro stack hmem hpw hlen
    cases stack with
    | nil =>
      refine ⟨?_, ?_⟩
      · simp [descendantsAux, descNext]
      · intro i hi
        simp [descendantsAux, descNext] at hi
    | cons s rest =>
      have hsk := hmem s (List.mem_cons_self _ _)
      obtain ⟨n, hn⟩ := mem_keysOf_iff_lookupK.mp hsk
      have hmemn := lookupK_mem hn
      have hsid : n.id = s := hwf.id_eq _ hmemn
      have hsb := hbound s hsk
      have hkey : ∀ c ∈ n.children,
          c ∈ keysOf t.instances ∧ rank s < rank c := by
        intro c hc
        obtain ⟨nc, hnc, _⟩ := hwf.child_parent _ hmemn _ hc
        exact ⟨mem_keysOf_of_lookupK hnc, hrank _ hmemn _ hc⟩
      have hstep : descendantsAux t (fuel + 1) (s :: rest) =
          n :: descendantsAux t fuel (n.children.reverse ++ rest) := by
        simp [descendantsAux, descNext, hn]
      obtain ⟨B', hB'⟩ : ∃ B', t.instances.length = B' + 1 :=
        ⟨t.instances.length - 1, by omega⟩
      have hconv : ∀ c ∈ n.children.reverse,
          dfsSpec t B' c = dfsSpec t (B' + 1) c := by
        intro c hcrev
        obtain ⟨hck, hlt⟩ := hkey c (List.mem_reverse.mp hcrev)
        have hcb := hbound c hck
        exact dfsSpec_stable hwf hrank hbound B' (B' + 1) c hck (by omega)
          (by omega)
      have hFs : dfsSpec t t.instances.length s =
          s :: ((n.children.reverse.map
            (fun c => dfsSpec t t.instances.length c)).flatten) := by
        rw [hB']
        simp only [dfsSpec, hn]
        exact congrArg (List.cons s)
          (congrArg List.flatten (List.map_congr_left hconv))
      have hRHS : (((s :: rest).map
            (fun u => dfsSpec t t.instances.length u)).flatten) =
          s :: (((n.children.reverse ++ rest).map
            (fun u => dfsSpec t t.instances.length u)).flatten) := by
        simp only [List.map_cons, List.flatten_cons, List.map_append,
          List.flatten_append, hFs, List.cons_append]
      have hmem2 : ∀ u ∈ n.children.reverse ++ rest,
          u ∈ keysOf t.instances := by
        intro u hu
        rcases List.mem_append.mp hu with hu | hu
        · exact (hkey u (List.mem_reverse.mp hu)).1
        · exact hmem u (List.mem_cons_of_mem _ hu)
      obtain ⟨hsr, hrr⟩ := List.pairwise_cons.mp hpw
      have hpwc : List.Pairwise
          (fun a b => ∀ x, Reaches t a x → Reaches t b x → False)
          n.children.reverse := by
        have hnd : n.children.reverse.Nodup :=
          List.nodup_reverse.mpr (hwf.nodup_children _ hmemn)
        refine List.Pairwise.imp_of_mem ?_ hnd
        intro a b ha hb hab x hax hbx
        exact sibling_disjoint hwf hrank hn (List.mem_reverse.mp ha)
          (List.mem_reverse.mp hb) hab hax hbx
      have hcross : ∀ a ∈ n.children.reverse, ∀ b ∈ rest,
          ∀ x, Reaches t a x → Reaches t b x → False := by
        intro a ha b hb x hax hbx
        exact hsr b hb x
          ((reaches_child hn (List.mem_reverse.mp ha)).trans hax) hbx
      have hpw2 := List.pairwise_append.mpr ⟨hpwc, hrr, hcross⟩
      have hlen2 : (((n.children.reverse ++ rest).map
            (fun u => dfsSpec t t.instances.length u)).flatten).length ≤
          fuel := by
        rw [hRHS] at hlen
        simp only [List.length_cons] at hlen
        omega
      obtain ⟨ihmap, ihlook⟩ := ih (n.children.reverse ++ rest) hmem2 hpw2 hlen2
      constructor
      · rw [hstep, hRHS, List.map_cons, hsid, ihmap]
      · intro i hi
        rw [hstep] at hi
        rcases List.mem_cons.mp hi with rfl | hi2
        · rw [hsid]
          exact hn
        · exact ihlook i hi2

/-- `position` finds an index for any present element, and removing at that
index removes the first occurrence. -/
theorem position_spec (a : RbxId) :
    ∀ l : List RbxId, a ∈ l →
      ∃ i, position a l = some i ∧ l.eraseIdx i = l.erase a := by
  intro l
  induction l with
  | nil =>
    intro h
    cases h
  | cons y rest ih =>
    intro h
    by_cases hy : y = a
    · subst hy
      refine ⟨0, by simp [position], ?_⟩
      simp [List.eraseIdx, List.erase_cons]
    · have ha : a ∈ rest := by
        rcases List.mem_cons.mp h with rfl | h2
        · exact absurd rfl hy
        · exact h2
      obtain ⟨i, h1, h2⟩ := ih ha
      refine ⟨i + 1, ?_, ?_⟩
      · simp [position, hy, h1]
      · simp [List.eraseIdx, List.erase_cons, hy, h2]

/-- Master lemma for the collection loop of `remove_instance`: over any map
that agrees with a well-formed ambient forest on the subtrees of the stacked
ids (which are present, with pairwise disjoint subtrees), the loop moves
exactly the nodes reachable from the stack from the map into the accumulator,
each exactly once, unchanged, and touches nothing else. -/
theorem removeLoop_spec {α : Type} {t : RbxTree α} (hwf : WF t)
    {rank : RbxId → Nat}
    (hrank : ∀ kn ∈ t.instances, ∀ c ∈ (kn.2).children, rank kn.1 < rank c) :
    ∀ fuel (I : List (RbxId × RootedRbxInstance α)) stack acc,
      sizeK I + stack.length ≤ fuel →
      (∀ s ∈ stack, s ∈ keysOf t.instances) →
      stack.Pairwise (fun a b => ∀ x, Reaches t a x → Reaches t b x → False) →
      (keysOf I).Nodup →
      (∀ s ∈ stack, ∀ x, Reaches t s x →
        lookupK x I = lookupK x t.instances) →
      (∀ s ∈ stack, ∀ x, Reaches t s x → x ∉ keysOf acc) →
      (keysOf acc).Nodup →
      (∀ x, (∃ s ∈ stack, Reaches t s x) →
          lookupK x (removeLoop fuel I stack acc).1 = none)
      ∧ (∀ x, (¬ ∃ s ∈ stack, Reaches t s x) →
          lookupK x (removeLoop fuel I stack acc).1 = lookupK x I)
      ∧ (∀ x, (∃ s ∈ stack, Reaches t s x) →
          lookupK x (removeLoop fuel I stack acc).2 = lookupK x t.instances)
      ∧ (∀ x, (¬ ∃ s ∈ stack, Reaches t s x) →
          lookupK x (removeLoop fuel I stack acc).2 = lookupK x acc)
      ∧ (keysOf (removeLoop fuel I stack acc).2).Nodup := by
  intro fuel
  induction fuel with
  | zero =>
    intro I stack acc hfuel hmem hpw hInd hagree hnoacc haccnd
    cases stack with
    | nil =>
      refine ⟨?_, fun x _ => rfl, ?_, fun x _ => rfl, haccnd⟩
      · rintro x ⟨s, hs, _⟩
        cases hs
      · rintro x ⟨s, hs, _⟩
        cases hs
    | cons s rest =>
      exfalso
      simp only [List.length_cons] at hfuel
      omega
  | succ fuel ih =>
    intro I stack acc hfuel hmem hpw hInd hagree hnoacc haccnd
    cases stack with
    | nil =>
      refine ⟨?_, fun x _ => rfl, ?_, fun x _ => rfl, haccnd⟩
      · rintro x ⟨s, hs, _⟩
        cases hs
      · rintro x ⟨s, hs, _⟩
        cases hs
    | cons s rest =>
      have hsk := hmem s (List.mem_cons_self _ _)
      obtain ⟨ns, hnst⟩ := mem_keysOf_iff_lookupK.mp hsk
      have hnsI : lookupK s I = some ns :=
        (hagree s (List.mem_cons_self _ _) s (Reaches.refl s)).trans hnst
      have hmemn := lookupK_mem hnst
      have hkey : ∀ c ∈ ns.children,
          c ∈ keysOf t.instances ∧ rank s < rank c := by
        intro c hc
        obtain ⟨nc, hnc, _⟩ := hwf.child_parent _ hmemn _ hc
        exact ⟨mem_keysOf_of_lookupK hnc, hrank _ hmemn _ hc⟩
      obtain ⟨hsr, hrr⟩ := List.pairwise_cons.mp hpw
      have hstep : removeLoop (fuel + 1) I (s :: rest) acc =
          removeLoop fuel (eraseK s I) (ns.children.reverse ++ rest)
            (insertK s ns acc) := by
        simp [removeLoop, hnsI]
      have hsnot : ∀ u ∈ ns.children.reverse ++ rest,
          ∀ x, Reaches t u x → x ≠ s := by
        intro u hu x hux hxs
        subst hxs
        rcases List.mem_append.mp hu with hu | hu
        · have hlt := (hkey u (List.mem_reverse.mp hu)).2
          rcases rank_mono hrank hux with rfl | h2
          · omega
          · omega
        · exact hsr u hu x (Reaches.refl x) hux
      have hmem2 : ∀ u ∈ ns.children.reverse ++ rest,
          u ∈ keysOf t.instances := by
        intro u hu
        rcases List.mem_append.mp hu with hu | hu
        · exact (hkey u (List.mem_reverse.mp hu)).1
        · exact hmem u (List.mem_cons_of_mem _ hu)
      have hpwc : List.Pairwise
          (fun a b => ∀ x, Reaches t a x → Reaches t b x → False)
          ns.children.reverse := by
        have hnd : ns.children.reverse.Nodup :=
          List.nodup_reverse.mpr (hwf.nodup_children _ hmemn)
        refine List.Pairwise.imp_of_mem ?_ hnd
        intro a b ha hb hab x hax hbx
        exact sibling_disjoint hwf hrank hnst (List.mem_reverse.mp ha)
          (List.mem_reverse.mp hb) hab hax hbx
      have hcross : ∀ a ∈ ns.children.reverse, ∀ b ∈ rest,
          ∀ x, Reaches t a x → Reaches t b x → False := by
        intro a ha b hb x hax hbx
        exact hsr b hb x
          ((reaches_child hnst (List.mem_reverse.mp ha)).trans hax) hbx
      have hpw2 := List.pairwise_append.mpr ⟨hpwc, hrr, hcross⟩
      have hInd2 : (keysOf (eraseK s I)).Nodup := nodup_keysOf_eraseK hInd
      have hagree2 : ∀ u ∈ ns.children.reverse ++ rest,
          ∀ x, Reaches t u x →
          lookupK x (eraseK s I) = lookupK x t.instances := by
        intro u hu x hux
        rw [lookupK_eraseK_ne (hsnot u hu x hux)]
        rcases List.mem_append.mp hu with hu | hu
        · exact hagree s (List.mem_cons_self _ _) x
            ((reaches_child hnst (List.mem_reverse.mp hu)).trans hux)
        · exact hagree u (List.mem_cons_of_mem _ hu) x hux
      have hnoacc2 : ∀ u ∈ ns.children.reverse ++ rest,
          ∀ x, Reaches t u x → x ∉ keysOf (insertK s ns acc) := by
        intro u hu x hux hmem'
        simp only [insertK, keysOf, List.map_cons, List.mem_cons] at hmem'
        rcases hmem' with rfl | hmem'
        · exact hsnot u hu x hux rfl
        · have hxacc : x ∈ keysOf acc :=
            (keysOf_eraseK_sublist s acc).subset hmem'
          rcases List.mem_append.mp hu with hu | hu
          · exact hnoacc s (List.mem_cons_self _ _) x
              ((reaches_child hnst (List.mem_reverse.mp hu)).trans hux) hxacc
          · exact hnoacc u (List.mem_cons_of_mem _ hu) x hux hxacc
      have haccnd2 : (keysOf (insertK s ns acc)).Nodup :=
        nodup_keysOf_insertK haccnd
      have hfuel2 : sizeK (eraseK s I) +
          (ns.children.reverse ++ rest).length ≤ fuel := by
        have hsz := sizeK_eraseK hnsI
        simp only [List.length_append, List.length_reverse,
          List.length_cons] at hfuel ⊢
        omega
      obtain ⟨ih1, ih2, ih3, ih4, ih5⟩ := ih (eraseK s I)
        (ns.children.reverse ++ rest) (insertK s ns acc) hfuel2 hmem2 hpw2
        hInd2 hagree2 hnoacc2 haccnd2
      have hsnots : ¬ ∃ u ∈ ns.children.reverse ++ rest, Reaches t u s := by
        rintro ⟨u, hu, hus⟩
        exact hsnot u hu s hus rfl
      have hsplit : ∀ x, (∃ u ∈ s :: rest, Reaches t u x) ↔
          (x = s ∨ ∃ u ∈ ns.children.reverse ++ rest, Reaches t u x) := by
        intro x
        constructor
        · rintro ⟨u, hu, hux⟩
          rcases List.mem_cons.mp hu with rfl | hu
          · rcases reaches_head_cases hux with rfl | ⟨m, c, hm, hc, hcx⟩
            · exact Or.inl rfl
            · rw [hnst] at hm
              injection hm with hm
              subst hm
              exact Or.inr ⟨c, List.mem_append.mpr
                (Or.inl (List.mem_reverse.mpr hc)), hcx⟩
          · exact Or.inr ⟨u, List.mem_append.mpr (Or.inr hu), hux⟩
        · rintro (rfl | ⟨u, hu, hux⟩)
          · exact ⟨x, List.mem_cons_self _ _, Reaches.refl x⟩
          · rcases List.mem_append.mp hu with hu | hu
            · exact ⟨s, List.mem_cons_self _ _,
                (reaches_child hnst (List.mem_reverse.mp hu)).trans hux⟩
            · exact ⟨u, List.mem_cons_of_mem _ hu, hux⟩
      rw [hstep]
      refine ⟨?_, ?_, ?_, ?_, ih5⟩
      · intro x hx
        rcases (hsplit x).mp hx with rfl | hx2
        · rw [ih2 x hsnots]
          exact lookupK_eraseK_self hInd
        · exact ih1 x hx2
      · intro x hx
        have hx2 : ¬ ∃ u ∈ ns.children.reverse ++ rest, Reaches t u x :=
          fun ⟨u, hu, hux⟩ => hx ((hsplit x).mpr (Or.inr ⟨u, hu, hux⟩))
        have hxs : x ≠ s := fun h => hx ((hsplit x).mpr (Or.inl h))
        rw [ih2 x hx2, lookupK_eraseK_ne hxs]
      · intro x hx
        rcases (hsplit x).mp hx with rfl | hx2
        · rw [ih4 x hsnots, lookupK_insertK_self]
          exact hnst.symm
        · exact ih3 x hx2
      · intro x hx
        have hx2 : ¬ ∃ u ∈ ns.children.reverse ++ rest, Reaches t u x :=
          fun ⟨u, hu, hux⟩ => hx ((hsplit x).mpr (Or.inr ⟨u, hu, hux⟩))
        have hxs : x ≠ s := fun h => hx ((hsplit x).mpr (Or.inl h))
        rw [ih4 x hx2, lookupK_insertK_ne hxs]

/-- The four-node witness forest satisfies the data-model invariants. -/
theorem wfTree_wf : WF wfTree := by
  refine ⟨by decide, by decide, ?_, ?_, ?_, ?_, by decide, by decide,
    ⟨fun x => x, by decide⟩⟩
  · intro kn hkn q hq
    simp only [wfTree, List.mem_cons, List.not_mem_nil, or_false] at hkn
    rcases hkn with rfl | rfl | rfl | rfl
    · simp at hq
    · cases hq
      exact ⟨⟨10, 1, [2, 3], none⟩, by decide, by decide⟩
    · cases hq
      exact ⟨⟨10, 1, [2, 3], none⟩, by decide, by decide⟩
    · cases hq
      exact ⟨⟨20, 2, [4], some 1⟩, by decide, by decide⟩
  · intro kn hkn c hc
    simp only [wfTree, List.mem_cons, List.not_mem_nil, or_false] at hkn
    rcases hkn with rfl | rfl | rfl | rfl
    · simp only [List.mem_cons, List.not_mem_nil, or_false] at hc
      rcases hc with rfl | rfl
      · exact ⟨⟨20, 2, [4], some 1⟩, by decide, by decide⟩
      · exact ⟨⟨30, 3, [], some 1⟩, by decide, by decide⟩
    · simp only [List.mem_cons, List.not_mem_nil, or_false] at hc
      rcases hc with rfl
      exact ⟨⟨40, 4, [], some 2⟩, by decide, by decide⟩
    · simp at hc
    · simp at hc
  · intro r hr
    simp only [wfTree, List.mem_cons, List.not_mem_nil, or_false] at hr
    rcases hr with rfl
    exact ⟨⟨10, 1, [2, 3], none⟩, by decide, by decide⟩
  · intro kn hkn h
    simp only [wfTree, List.mem_cons, List.not_mem_nil, or_false] at hkn
    rcases hkn with rfl | rfl | rfl | rfl
    · decide
    · simp at h
    · simp at h
    · simp at h

/-- C5: on a well-formed forest, removing a present `root_id` succeeds and:
unlinks `root_id` from its former parent's child list (first occurrence) or
from the root set if it was a root; moves exactly `root_id` and its reachable
descendants — each exactly once, and no unreachable node — into the returned
forest, whose root set is exactly `[root_id]`; every moved node is returned
with its parent and child fields exactly as they were; and no other node of
the remaining forest is touched. -/
theorem c5_remove_instance_correct {α : Type} (t : RbxTree α) (hwf : WF t)
    (root_id : RbxId) (n0 : RootedRbxInstance α)
    (h0 : lookupK root_id t.instances = some n0) :
    ∃ t' ret, remove_instance t root_id = some (t', some ret)
      ∧ ret.root_ids = [root_id]
      ∧ (∀ x, Reaches t root_id x →
          lookupK x ret.instances = lookupK x t.instances
          ∧ lookupK x t'.instances = none)
      ∧ (∀ x, ¬ Reaches t root_id x → lookupK x ret.instances = none)
      ∧ (keysOf ret.instances).Nodup
      ∧ (∀ x, ¬ Reaches t root_id x → n0.parent ≠ some x →
          lookupK x t'.instances = lookupK x t.instances)
      ∧ (∀ pid, n0.parent = some pid →
          ∃ np, lookupK pid t.instances = some np
            ∧ lookupK pid t'.instances =
              some { np with children := np.children.erase root_id }
            ∧ t'.root_ids = t.root_ids)
      ∧ (n0.parent = none → t'.root_ids = t.root_ids.erase root_id) := by
  obtain ⟨rank, hrank, _⟩ := exists_bounded_rank hwf
  have hmem0 := lookupK_mem h0
  have hk0 : root_id ∈ keysOf t.instances := mem_keysOf_of_lookupK h0
  have hmem1 : ∀ u ∈ [root_id], u ∈ keysOf t.instances := by
    intro u hu
    have hu' := List.mem_singleton.mp hu
    subst hu'
    exact hk0
  have hpw1 : ([root_id]).Pairwise
      (fun a b => ∀ x, Reaches t a x → Reaches t b x → False) :=
    List.pairwise_singleton _ _
  have hnoacc1 : ∀ u ∈ [root_id], ∀ x, Reaches t u x →
      x ∉ keysOf ([] : List (RbxId × RootedRbxInstance α)) := by
    intro u _ x _ hx
    cases hx
  have haccnd1 : (keysOf ([] : List (RbxId × RootedRbxInstance α))).Nodup :=
    List.Pairwise.nil
  have hconv : ∀ x, (∃ s ∈ [root_id], Reaches t s x) ↔
      Reaches t root_id x := by
    intro x
    constructor
    · rintro ⟨s, hs, hsx⟩
      have hs' := List.mem_singleton.mp hs
      subst hs'
      exact hsx
    · intro hx
      exact ⟨root_id, List.mem_singleton.mpr rfl, hx⟩
  cases hp : n0.parent with
  | some pid =>
    obtain ⟨np, hnp, hrootmem⟩ := hwf.parent_mem _ hmem0 pid hp
    obtain ⟨i, hposi, hidx⟩ := position_spec root_id np.children hrootmem
    have hpnr : ¬ Reaches t root_id pid := by
      intro hreach
      have h1 : rank pid < rank root_id :=
        hrank _ (lookupK_mem hnp) _ hrootmem
      rcases rank_mono hrank hreach with heq | h2
      · rw [heq] at h1
        omega
      · omega
    have hunlink : unlinkStep t root_id n0 =
        some ⟨insertK pid { np with children := np.children.erase root_id }
          t.instances, t.root_ids⟩ := by
      simp [unlinkStep, hp, hnp, hposi, hidx]
    have hagree1 : ∀ u ∈ [root_id], ∀ x, Reaches t u x →
        lookupK x (insertK pid
          { np with children := np.children.erase root_id } t.instances) =
        lookupK x t.instances := by
      intro u hu x hux
      have hu' := List.mem_singleton.mp hu
      subst hu'
      have hxpid : x ≠ pid := fun hh => hpnr (hh ▸ hux)
      exact lookupK_insertK_ne hxpid _ _
    obtain ⟨m1, m2, m3, m4, m5⟩ := removeLoop_spec hwf hrank
      (sizeK (insertK pid { np with children := np.children.erase root_id }
        t.instances) + 1)
      (insertK pid { np with children := np.children.erase root_id }
        t.instances)
      [root_id] [] (by simp) hmem1 hpw1
      (nodup_keysOf_insertK hwf.nodup_keys) hagree1 hnoacc1 haccnd1
    refine ⟨⟨(removeLoop (sizeK (insertK pid
        { np with children := np.children.erase root_id } t.instances) + 1)
        (insertK pid { np with children := np.children.erase root_id }
          t.instances) [root_id] []).1, t.root_ids⟩,
      ⟨(removeLoop (sizeK (insertK pid
        { np with children := np.children.erase root_id } t.instances) + 1)
        (insertK pid { np with children := np.children.erase root_id }
          t.instances) [root_id] []).2, [root_id]⟩,
      ?_, rfl, ?_, ?_, m5, ?_, ?_, ?_⟩
    · simp [remove_instance, h0, hunlink]
    · intro x hx
      exact ⟨m3 x ((hconv x).mpr hx), m1 x ((hconv x).mpr hx)⟩
    · intro x hx
      exact m4 x (fun h => hx ((hconv x).mp h))
    · intro x hx hne
      have hxpid : x ≠ pid := by
        intro hh
        rw [hh] at hne
        exact hne rfl
      have h2 := m2 x (fun h => hx ((hconv x).mp h))
      exact h2.trans (lookupK_insertK_ne hxpid _ _)
    · intro pid' hpid'
      injection hpid' with hpe
      subst hpe
      refine ⟨np, hnp, ?_, rfl⟩
      have h2 := m2 pid (fun h => hpnr ((hconv pid).mp h))
      exact h2.trans (lookupK_insertK_self _ _ _)
    · intro hh
      cases hh
  | none =>
    have hunlink : unlinkStep t root_id n0 =
        some ⟨t.instances, t.root_ids.erase root_id⟩ := by
      simp [unlinkStep, hp]
    have hagree1 : ∀ u ∈ [root_id], ∀ x, Reaches t u x →
        lookupK x t.instances = lookupK x t.instances :=
      fun _ _ _ _ => rfl
    obtain ⟨m1, m2, m3, m4, m5⟩ := removeLoop_spec hwf hrank
      (sizeK t.instances + 1) t.instances [root_id] [] (by simp) hmem1 hpw1
      hwf.nodup_keys hagree1 hnoacc1 haccnd1
    refine ⟨⟨(removeLoop (sizeK t.instances + 1) t.instances
        [root_id] []).1, t.root_ids.erase root_id⟩,
      ⟨(removeLoop (sizeK t.instances + 1) t.instances [root_id] []).2,
        [root_id]⟩,
      ?_, rfl, ?_, ?_, m5, ?_, ?_, ?_⟩
    · simp [remove_instance, h0, hunlink]
    · intro x hx
      exact ⟨m3 x ((hconv x).mpr hx), m1 x ((hconv x).mpr hx)⟩
    · intro x hx
      exact m4 x (fun h => hx ((hconv x).mp h))
    · intro x hx _
      exact m2 x (fun h => hx ((hconv x).mp h))
    · intro pid' hpid'
      cases hpid'
    · intro _
      rfl

/-- Witness for C5 on the four-node forest, removing the inner node `2`
(child list `[4]`, parent `1`). -/
theorem c5_remove_instance_correct_witness :
    ∃ t' ret, remove_instance wfTree 2 = some (t', some ret)
      ∧ ret.root_ids = [2]
      ∧ (∀ x, Reaches wfTree 2 x →
          lookupK x ret.instances = lookupK x wfTree.instances
          ∧ lookupK x t'.instances = none)
      ∧ (∀ x, ¬ Reaches wfTree 2 x → lookupK x ret.instances = none)
      ∧ (keysOf ret.instances).Nodup
      ∧ (∀ x, ¬ Reaches wfTree 2 x →
          (⟨20, 2, [4], some 1⟩ : RootedRbxInstance Nat).parent ≠ some x →
          lookupK x t'.instances = lookupK x wfTree.instances)
      ∧ (∀ pid, (⟨20, 2, [4], some 1⟩ :
            RootedRbxInstance Nat).parent = some pid →
          ∃ np, lookupK pid wfTree.instances = some np
            ∧ lookupK pid t'.instances =
              some { np with children := np.children.erase 2 }
            ∧ t'.root_ids = wfTree.root_ids)
      ∧ ((⟨20, 2, [4], some 1⟩ : RootedRbxInstance Nat).parent = none →
          t'.root_ids = wfTree.root_ids.erase 2) :=
  c5_remove_instance_correct wfTree wfTree_wf 2 ⟨20, 2, [4], some 1⟩
    (by decide)

/-- C6: on a well-formed forest, iterating the descendants iterator of a
present `id` (with enough `next` calls to exhaust it) yields the node of `id`
itself first; the yielded id sequence equals the specification traversal
`dfsSpec` — the depth-first walk visiting each node's children in reverse
child-list order; and it covers exactly `{id} ∪ {transitive children of id}`
(the `Reaches` relation), each node exactly once, with every yielded node
being the forest's node for its id. -/
theorem c6_descendants_traversal {α : Type} (t : RbxTree α) (hwf : WF t)
    (id : RbxId) (hid : id ∈ keysOf t.instances) (fuel : Nat)
    (hfuel : (dfsSpec t t.instances.length id).length ≤ fuel) :
    ((descendants t id fuel).map (fun i => i.id) =
        dfsSpec t t.instances.length id)
    ∧ (∃ n ds, descendants t id fuel = n :: ds ∧
        lookupK id t.instances = some n)
    ∧ ((descendants t id fuel).map (fun i => i.id)).Nodup
    ∧ (∀ x, x ∈ (descendants t id fuel).map (fun i => i.id) ↔
        Reaches t id x) := by
  obtain ⟨rank, hrank, hbound⟩ := exists_bounded_rank hwf
  have hb := hbound id hid
  have hmem1 : ∀ s ∈ [id], s ∈ keysOf t.instances := by
    intro s hs
    rcases List.mem_singleton.mp hs with rfl
    exact hid
  have hpw1 : ([id]).Pairwise
      (fun a b => ∀ x, Reaches t a x → Reaches t b x → False) :=
    List.pairwise_singleton _ _
  have hflat : (([id].map
      (fun u => dfsSpec t t.instances.length u)).flatten) =
      dfsSpec t t.instances.length id := by
    simp
  have hm := descendantsAux_spec hwf hrank hbound fuel [id] hmem1 hpw1
    (by rw [hflat]; exact hfuel)
  have h1 : (descendants t id fuel).map (fun i => i.id) =
      dfsSpec t t.instances.length id := by
    have := hm.1
    rw [hflat] at this
    exact this
  obtain ⟨l, hl⟩ := dfsSpec_cons t t.instances.length id
  refine ⟨h1, ?_, ?_, ?_⟩
  · cases hd : descendants t id fuel with
    | nil =>
      rw [hd] at h1
      rw [hl] at h1
      cases h1
    | cons n ds =>
      refine ⟨n, ds, rfl, ?_⟩
      have hlook : lookupK n.id t.instances = some n := by
        refine hm.2 n ?_
        have : n ∈ descendants t id fuel := by
          rw [hd]
          exact List.mem_cons_self _ _
        exact this
      have hnid : n.id = id := by
        rw [hd, hl] at h1
        simp only [List.map_cons, List.cons.injEq] at h1
        exact h1.1
      rw [hnid] at hlook
      exact hlook
  · rw [h1]
    exact dfsSpec_nodup hwf hrank hbound t.instances.length id hid (by omega)
  · intro x
    rw [h1]
    constructor
    · intro hx
      exact dfsSpec_mem_reaches hwf hrank hbound t.instances.length id x hid
        (by omega) hx
    · intro hx
      exact reaches_mem_dfsSpec hwf hrank hbound t.instances.length id x hid
        (by omega) hx

/-- Witness for C6 on the four-node forest: the traversal from the root is
`[1, 3, 2, 4]` (reverse child order: `3` before `2`, then `2`'s child `4`). -/
theorem c6_descendants_traversal_witness :
    ((descendants wfTree 1 10).map (fun i => i.id) =
        dfsSpec wfTree wfTree.instances.length 1)
    ∧ (∃ n ds, descendants wfTree 1 10 = n :: ds ∧
        lookupK 1 wfTree.instances = some n)
    ∧ ((descendants wfTree 1 10).map (fun i => i.id)).Nodup
    ∧ (∀ x, x ∈ (descendants wfTree 1 10).map (fun i => i.id) ↔
        Reaches wfTree 1 x) :=
  c6_descendants_traversal wfTree wfTree_wf 1 (by decide) 10 (by decide)

/-- Building `exTreeA` and `exTreeAB` through the public API. -/
theorem exTree_built :
    insert_instance (RbxTree.new : RbxTree Nat) 100 1 none = some (1, exTreeA)
    ∧ insert_instance exTreeA 200 2 (some 1) = some (2, exTreeAB) := by
  decide

/-- C1: counterexample-style evaluation.  Transplanting node `1` (whose
subtree is `{1, 2}`) out of `exTreeAB` into an empty forest moves only node
`1`: the target does not contain descendant `2`, and the source still does.
The claim that the target contains every transitive descendant and the
source none of them fails on the code. -/
theorem c1_transplant_drops_descendants :
    transplant (RbxTree.new : RbxTree Nat) exTreeAB 1 none =
      some (⟨[(1, ⟨100, 1, [], none⟩)], [1]⟩, ⟨[(2, ⟨200, 2, [], some 1⟩)], [1]⟩)
    ∧ lookupK 2 (⟨[(1, ⟨100, 1, [], none⟩)], [1]⟩ : RbxTree Nat).instances = none
    ∧ lookupK 2 (⟨[(2, ⟨200, 2, [], some 1⟩)], [1]⟩ : RbxTree Nat).instances =
      some ⟨200, 2, [], some 1⟩
    ∧ Reaches exTreeAB 1 2 := by
  refine ⟨by decide, by decide, by decide, ?_⟩
  exact Reaches.tail (n := ⟨100, 1, [2], none⟩) (Reaches.refl 1) (by decide) (by decide)

/-- C2: counterexample-style evaluation.  In the same transplant, the moved
node `1` had child list `[2]` in the source, but after the move its child
list in the target is `[]`: the code clears each visited node's child list
before reading it, so the subtree's internal shape is not preserved. -/
theorem c2_transplant_clears_children :
    lookupK 1 exTreeAB.instances = some ⟨100, 1, [2], none⟩
    ∧ transplant (RbxTree.new : RbxTree Nat) exTreeAB 1 none =
      some (⟨[(1, ⟨100, 1, [], none⟩)], [1]⟩, ⟨[(2, ⟨200, 2, [], some 1⟩)], [1]⟩)
    ∧ lookupK 1 (⟨[(1, ⟨100, 1, [], none⟩)], [1]⟩ : RbxTree Nat).instances =
      some ⟨100, 1, [], none⟩ := by
  decide

/-- C3: counterexample-style evaluation.  After the API sequence (two inserts
from empty, then a transplant whose caller preconditions hold: the source id
`1` exists and the new parent is `None`), the source forest violates
invariant 1: node `2` is present with `parent = some 1` while `1` is no
longer in the map (and `2` is in no child list); its `root_ids` also still
contains the departed id `1`. -/
theorem c3_invariants_broken_after_transplant :
    insert_instance (RbxTree.new : RbxTree Nat) 100 1 none = some (1, exTreeA)
    ∧ insert_instance exTreeA 200 2 (some 1) = some (2, exTreeAB)
    ∧ transplant (RbxTree.new : RbxTree Nat) exTreeAB 1 none =
      some (⟨[(1, ⟨100, 1, [], none⟩)], [1]⟩, ⟨[(2, ⟨200, 2, [], some 1⟩)], [1]⟩)
    ∧ lookupK 2 (⟨[(2, ⟨200, 2, [], some 1⟩)], [1]⟩ : RbxTree Nat).instances =
      some ⟨200, 2, [], some 1⟩
    ∧ lookupK 1 (⟨[(2, ⟨200, 2, [], some 1⟩)], [1]⟩ : RbxTree Nat).instances = none
    ∧ (⟨[(2, ⟨200, 2, [], some 1⟩)], [1]⟩ : RbxTree Nat).root_ids = [1] := by
  decide

/-- C4: counterexample-style evaluation.  Removing node `1` from `exTreeAB`
and transplanting the returned forest's root back under its original parent
(`None`) does not reproduce the original forest: node `2` is absent from the
result (it stays behind in the detached forest), and node `1` has lost its
child list. -/
theorem c4_roundtrip_not_identity :
    remove_instance exTreeAB 1 =
      some ((⟨[], []⟩ : RbxTree Nat),
        some ⟨[(2, ⟨200, 2, [], some 1⟩), (1, ⟨100, 1, [2], none⟩)], [1]⟩)
    ∧ transplant (⟨[], []⟩ : RbxTree Nat)
        (⟨[(2, ⟨200, 2, [], some 1⟩), (1, ⟨100, 1, [2], none⟩)], [1]⟩ : RbxTree Nat) 1 none =
      some (⟨[(1, ⟨100, 1, [], none⟩)], [1]⟩, ⟨[(2, ⟨200, 2, [], some 1⟩)], [1]⟩)
    ∧ lookupK 2 (⟨[(1, ⟨100, 1, [], none⟩)], [1]⟩ : RbxTree Nat).instances = none
    ∧ lookupK 2 exTreeAB.instances = some ⟨200, 2, [], some 1⟩
    ∧ (⟨[(1, ⟨100, 1, [], none⟩)], [1]⟩ : RbxTree Nat) ≠ exTreeAB := by
  decide

/-- C10: `Clone::clone` on `RbxTree` is `unimplemented!()`: it unconditionally
panics (embedded as `none`), so it never returns a copied forest. -/
theorem c10_clone_panics {α : Type} (t : RbxTree α) : t.clone = none :=
  rfl

/-- C7: inserting under an existing parent `p` (with the fresh id the
generator guarantees to be unused) appends the new id at the end of `p`'s
child list, stores the new node with the given payload, touches no other
node, and leaves the root set unchanged.  Appending at the end is what makes
repeated insertions under the same parent appear in insertion order. -/
theorem c7_insert_appends_child {α : Type} (t : RbxTree α) (payload : α)
    (newId p : RbxId) (np : RootedRbxInstance α)
    (hp : lookupK p t.instances = some np)
    (hfresh : newId ∉ keysOf t.instances) :
    ∃ t', insert_instance t payload newId (some p) = some (newId, t')
      ∧ lookupK p t'.instances =
        some { np with children := np.children ++ [newId] }
      ∧ lookupK newId t'.instances = some ⟨payload, newId, [], some p⟩
      ∧ (∀ x, x ≠ p → x ≠ newId → lookupK x t'.instances = lookupK x t.instances)
      ∧ t'.root_ids = t.root_ids := by
  have hnp : newId ≠ p := fun hh => hfresh (hh ▸ mem_keysOf_of_lookupK hp)
  refine ⟨⟨insertK newId ⟨payload, newId, [], some p⟩
      (insertK p { np with children := np.children ++ [newId] } t.instances),
      t.root_ids⟩, ?_, ?_, ?_, ?_, ?_⟩
  · simp [insert_instance, insert_instance_internal, hp]
  · rw [lookupK_insertK_ne (Ne.symm hnp), lookupK_insertK_self]
  · rw [lookupK_insertK_self]
  · intro x hxp hxn
    rw [lookupK_insertK_ne hxn, lookupK_insertK_ne hxp]
  · rfl

/-- Witness for C7 at a concrete one-node forest. -/
theorem c7_insert_appends_child_witness :
    ∃ t', insert_instance w7tree (8 : Nat) 6 (some 5) = some (6, t')
      ∧ lookupK 5 t'.instances = some ⟨7, 5, [6], none⟩
      ∧ lookupK 6 t'.instances = some ⟨8, 6, [], some 5⟩
      ∧ (∀ x, x ≠ 5 → x ≠ 6 → lookupK x t'.instances = lookupK x w7tree.instances)
      ∧ t'.root_ids = w7tree.root_ids :=
  c7_insert_appends_child w7tree 8 6 5 ⟨7, 5, [], none⟩ (by decide) (by decide)

/-- C8: `remove_instance` returns `None` exactly when `root_id` is absent,
and in that case the forest is returned completely unchanged; when the id is
present, any non-panicking return carries a detached forest, never `None`. -/
theorem c8_remove_absent_no_mutation {α : Type} (t : RbxTree α)
    (root_id : RbxId) :
    (lookupK root_id t.instances = none →
      remove_instance t root_id = some (t, none))
    ∧ (∀ n0, lookupK root_id t.instances = some n0 →
        ∀ r, remove_instance t root_id = some r → r.2 ≠ none) := by
  constructor
  · intro h
    simp [remove_instance, h]
  · intro n0 h r hr
    unfold remove_instance at hr
    rw [h] at hr
    rcases hu : unlinkStep t root_id n0 with _ | t1
    · simp only [hu] at hr
      cases hr
    · simp only [hu, Option.some_inj] at hr
      rw [← hr]
      simp

/-- Witness for C8 on the empty forest. -/
theorem c8_remove_absent_no_mutation_witness :
    remove_instance (RbxTree.new : RbxTree Nat) 3 = some (RbxTree.new, none) :=
  (c8_remove_absent_no_mutation (RbxTree.new : RbxTree Nat) 3).1 rfl

/-- C9: inserting under a parent id that is not in the forest hits the
`expect` panic (embedded as `none`: the caller receives no forest at all, so
no partially mutated forest can be observed), while under the precondition
that the parent is present the operation completes with a result. -/
theorem c9_insert_missing_parent_panics {α : Type} (t : RbxTree α)
    (payload : α) (newId p : RbxId) :
    (lookupK p t.instances = none →
      insert_instance t payload newId (some p) = none)
    ∧ (∀ np, lookupK p t.instances = some np →
        ∃ t', insert_instance t payload newId (some p) = some (newId, t')) := by
  constructor
  · intro h
    simp [insert_instance, insert_instance_internal, h]
  · intro np h
    refine ⟨⟨insertK newId ⟨payload, newId, [], some p⟩
        (insertK p { np with children := np.children ++ [newId] } t.instances),
        t.root_ids⟩, ?_⟩
    simp [insert_instance, insert_instance_internal, h]

/-- Witness for C9 on the empty forest (absent parent) and on a one-node
forest (present parent). -/
theorem c9_insert_missing_parent_panics_witness :
    insert_instance (RbxTree.new : RbxTree Nat) 9 1 (some 5) = none ∧
    ∃ t', insert_instance w7tree (9 : Nat) 8 (some 5) = some (8, t') :=
  ⟨(c9_insert_missing_parent_panics (RbxTree.new : RbxTree Nat) 9 1 5).1 rfl,
    (c9_insert_missing_parent_panics w7tree 9 8 5).2 ⟨7, 5, [], none⟩ (by decide)⟩

end RbxDom
